import Mathlib

/-
Verification of the Dataset/DataLoader abstraction of the Dive-into-DL
notebooks (JAX variant), shallow-embedded in Lean 4.

The embedding follows the notebook code:
  * SyntheticRegressionData.__init__ draws features and noise from the JAX
    functional PRNG at the hard-coded key PRNGKey(0) and sets
    y = X @ w.reshape(-1,1) + b + noise.  The PRNG itself is an external
    collaborator; it is modelled as an explicit record of pure functions
    (split, normal) threaded through the constructor, which is exactly the
    functional interface JAX exposes.
  * get_dataloader (manual variant) materializes an index range, shuffles it
    in training mode (the shuffle outcome is modelled as an explicit
    function argument), and slices it into contiguous chunks of batch_size.
  * get_tensorloader (library-backed variant) slices the tensors, zips them
    into per-example pairs, shuffles with a buffer that spans the whole
    slice in training mode and is 1 otherwise, and batches the result.

Numeric values are rationals; the real-number / floating-point semantics of
the framework kernels is out of scope, as the spec declares.
-/

namespace D2L

/-- Dot product of two rational vectors, the 1-D core of jnp.matmul. -/
def dot (xs ws : List ℚ) : ℚ :=
  (List.zipWith (fun a c => a * c) xs ws).sum

/-- Model of the JAX functional pseudo-random interface: a key is a natural
number, split derives two fresh keys from a key, and normal interprets the
draw of a standard-normal sample at (key, row, column).  All draws are pure
functions of the key, as in JAX. -/
structure PRNG where
  split : Nat → Nat × Nat
  normal : Nat → Nat → Nat → ℚ

/-- Model of jax.random.PRNGKey: builds a key from a seed. -/
def PRNGKey (seed : Nat) : Nat := seed

/-- The SyntheticRegressionData object: saved hyperparameters plus the
generated design matrix X (n rows of width len w) and labels y (the (n,1)
column of the code, flattened to one rational per example). -/
structure SyntheticRegressionData where
  num_train : Nat
  num_val : Nat
  batch_size : Nat
  X : List (List ℚ)
  y : List ℚ

/-- Shallow embedding of SyntheticRegressionData.__init__ :
n = num_train + num_val; key = PRNGKey(0); key1, key2 = split key;
X = normal(key1, (n, len w)); noise_vec = normal(key2, (n,1)) * noise;
y = X @ w + b + noise_vec.  The PRNG record g stands for the external
jax.random collaborator; the seed is the literal 0 of the source. -/
def SyntheticRegressionData.init (g : PRNG) (w : List ℚ) (b : ℚ) (noise : ℚ)
    (num_train num_val batch_size : Nat) : SyntheticRegressionData :=
  let n := num_train + num_val
  let key := PRNGKey 0
  let key1 := (g.split key).1
  let key2 := (g.split key).2
  let X := (List.range n).map (fun i => (List.range w.length).map (fun j => g.normal key1 i j))
  let eps := (List.range n).map (fun i => g.normal key2 i 0 * noise)
  { num_train := num_train, num_val := num_val, batch_size := batch_size,
    X := X,
    y := List.zipWith (fun row e => dot row w + b + e) X eps }

/-- The same constructor with the PRNG seed exposed as an argument; used to
state which seed the source actually passes (the literal 0). -/
def SyntheticRegressionData.initWithSeed (g : PRNG) (seed : Nat) (w : List ℚ)
    (b : ℚ) (noise : ℚ) (num_train num_val batch_size : Nat) :
    SyntheticRegressionData :=
  let n := num_train + num_val
  let key := PRNGKey seed
  let key1 := (g.split key).1
  let key2 := (g.split key).2
  let X := (List.range n).map (fun i => (List.range w.length).map (fun j => g.normal key1 i j))
  let eps := (List.range n).map (fun i => g.normal key2 i 0 * noise)
  { num_train := num_train, num_val := num_val, batch_size := batch_size,
    X := X,
    y := List.zipWith (fun row e => dot row w + b + e) X eps }

/-- Matrix–vector product X @ w of jnp.matmul, made explicit about its one
failure mode: it is defined only when every row of X has the width of w,
and signals the dimension mismatch with none otherwise. -/
def matmul (X : List (List ℚ)) (w : List ℚ) : Option (List ℚ) :=
  if X.all (fun row => row.length == w.length) then
    some (X.map (fun row => dot row w))
  else
    none

/-- The constructor with the jnp.matmul dimension check made explicit: the
matmul of X with w is the only fallible step of __init__, and it runs at
construction time.  Returns none exactly when that matmul signals a
dimension mismatch. -/
def SyntheticRegressionData.initChecked (g : PRNG) (w : List ℚ) (b : ℚ)
    (noise : ℚ) (num_train num_val batch_size : Nat) :
    Option SyntheticRegressionData :=
  let n := num_train + num_val
  let key := PRNGKey 0
  let key1 := (g.split key).1
  let key2 := (g.split key).2
  let X := (List.range n).map (fun i => (List.range w.length).map (fun j => g.normal key1 i j))
  let eps := (List.range n).map (fun i => g.normal key2 i 0 * noise)
  (matmul X w).map (fun prods =>
    { num_train := num_train, num_val := num_val, batch_size := batch_size,
      X := X,
      y := List.zipWith (fun p e => p + b + e) prods eps })

/-- Contiguous slicing of a list into chunks, mirroring the Python loop
for i in range(0, len(indices), batch_size): yield indices[i : i+batch_size]
for batch_size ≥ 1: chunk k is the slice starting at k * batch_size, and the
number of loop iterations is the ceiling of len / batch_size. -/
def sliceChunks (bs : Nat) (l : List α) : List (List α) :=
  (List.range ((l.length + bs - 1) / bs)).map (fun k => (l.drop (k * bs)).take bs)

/-- Chunking as the spec words it: repeatedly take a contiguous chunk of
batch_size elements from the front (the last chunk may be short) until the
list is exhausted. -/
def chunkEvery (bs : Nat) : List α → List (List α)
  | [] => []
  | a :: rest => (a :: rest).take bs :: chunkEvery bs (rest.drop (bs - 1))
termination_by l => l.length
decreasing_by
  simp [List.length_drop]
  omega

theorem sliceChunks_nil (bs : Nat) : sliceChunks bs ([] : List α) = [] := by
  unfold sliceChunks
  have h : ((List.nil (α := α)).length + bs - 1) / bs = 0 := by
    cases bs with
    | zero => simp
    | succ k =>
      simp only [List.length_nil, Nat.zero_add, Nat.add_sub_cancel]
      exact Nat.div_eq_of_lt (by omega)
  rw [h]
  simp

theorem ceil_div_succ (bs n : Nat) (hbs : 1 ≤ bs) (hn : 1 ≤ n) :
    (n + bs - 1) / bs = (n - bs + bs - 1) / bs + 1 := by
  rcases le_or_lt bs n with h | h
  · have h1 : n + bs - 1 = (n - bs + bs - 1) + bs := by omega
    rw [h1, Nat.add_div_right _ (by omega)]
  · have h0 : n - bs = 0 := by omega
    rw [h0]
    have hL : (n + bs - 1) / bs = 1 := by
      apply Nat.div_eq_of_lt_le <;> omega
    have hR : (0 + bs - 1) / bs = 0 := Nat.div_eq_of_lt (by omega)
    omega

theorem sliceChunks_cons (bs : Nat) (hbs : 1 ≤ bs) (a : α) (rest : List α) :
    sliceChunks bs (a :: rest) =
      (a :: rest).take bs :: sliceChunks bs ((a :: rest).drop bs) := by
  unfold sliceChunks
  have hlen : (a :: rest).length = rest.length + 1 := by simp
  have hcount : ((a :: rest).length + bs - 1) / bs =
      (((a :: rest).drop bs).length + bs - 1) / bs + 1 := by
    rw [List.length_drop, hlen]
    exact ceil_div_succ bs (rest.length + 1) hbs (by omega)
  rw [hcount, List.range_succ_eq_map, List.map_cons]
  congr 1
  · simp
  · rw [List.map_map]
    congr 1
    funext k
    simp [Function.comp, List.drop_drop, Nat.succ_mul, Nat.add_comm]

theorem drop_cons_of_pos (bs : Nat) (hbs : 1 ≤ bs) (a : α) (rest : List α) :
    (a :: rest).drop bs = rest.drop (bs - 1) := by
  cases bs with
  | zero => omega
  | succ m => simp

theorem sliceChunks_eq_chunkEvery_aux (bs : Nat) (hbs : 1 ≤ bs) :
    ∀ (n : Nat) (l : List α), l.length ≤ n → sliceChunks bs l = chunkEvery bs l := by
  intro n
  induction n with
  | zero =>
    intro l hl
    have h0 : l = [] := List.eq_nil_of_length_eq_zero (Nat.le_zero.mp hl)
    rw [h0, sliceChunks_nil]
    simp [chunkEvery]
  | succ n ih =>
    intro l hl
    match l with
    | [] =>
      rw [sliceChunks_nil]
      simp [chunkEvery]
    | a :: rest =>
      rw [sliceChunks_cons bs hbs a rest, drop_cons_of_pos bs hbs a rest]
      conv_rhs => simp only [chunkEvery]
      congr 1
      apply ih
      have : (rest.drop (bs - 1)).length ≤ rest.length := by
        simp [List.length_drop]
      simp at hl
      omega

theorem sliceChunks_eq_chunkEvery (bs : Nat) (hbs : 1 ≤ bs) (l : List α) :
    sliceChunks bs l = chunkEvery bs l :=
  sliceChunks_eq_chunkEvery_aux bs hbs l.length l le_rfl

theorem length_sliceChunks (bs : Nat) (l : List α) :
    (sliceChunks bs l).length = (l.length + bs - 1) / bs := by
  simp [sliceChunks]

theorem sum_length_sliceChunks (bs : Nat) (hbs : 1 ≤ bs) (l : List α) :
    ((sliceChunks bs l).map List.length).sum = l.length := by
  suffices h : ∀ (n : Nat) (l : List α), l.length ≤ n →
      ((sliceChunks bs l).map List.length).sum = l.length by
    exact h l.length l le_rfl
  intro n
  induction n with
  | zero =>
    intro l hl
    have h0 : l = [] := List.eq_nil_of_length_eq_zero (Nat.le_zero.mp hl)
    rw [h0, sliceChunks_nil]
    simp
  | succ n ih =>
    intro l hl
    match l with
    | [] =>
      rw [sliceChunks_nil]
      simp
    | a :: rest =>
      rw [sliceChunks_cons bs hbs a rest]
      simp only [List.map_cons, List.sum_cons, List.length_take, List.length_drop]
      have hrec : ((sliceChunks bs ((a :: rest).drop bs)).map List.length).sum =
          ((a :: rest).drop bs).length := by
        apply ih
        simp at hl ⊢
        omega
      rw [hrec]
      simp only [List.length_drop, List.length_cons]
      rcases Nat.le_total bs (rest.length + 1) with h | h
      · rw [Nat.min_eq_left h]
        omega
      · rw [Nat.min_eq_right h]
        omega

theorem length_getElem_sliceChunks (bs : Nat) (l : List α) (k : Nat)
    (hk : k < (sliceChunks bs l).length) :
    ((sliceChunks bs l)[k]).length = min bs (l.length - k * bs) := by
  simp [sliceChunks] at hk ⊢

theorem mem_of_mem_sliceChunks (bs : Nat) (l : List α) (c : List α)
    (hc : c ∈ sliceChunks bs l) (x : α) (hx : x ∈ c) : x ∈ l := by
  simp only [sliceChunks, List.mem_map, List.mem_range] at hc
  rcases hc with ⟨k, _, hck⟩
  rw [← hck] at hx
  exact List.mem_of_mem_drop (List.mem_of_mem_take hx)

/-- Batch index lists of the manual loader: in training mode the materialized
range [0, num_train) after the random.shuffle call (whose drawn outcome is
the function shuffle), in validation mode range(num_train, num_train +
num_val); then sliced by the loop for i in range(0, len(indices),
batch_size). -/
def dataloader_indices (d : SyntheticRegressionData)
    (shuffle : List Nat → List Nat) (train : Bool) : List (List Nat) :=
  sliceChunks d.batch_size
    (if train then shuffle (List.range d.num_train)
     else List.range' d.num_train d.num_val)

/-- Shallow embedding of get_dataloader (manual variant): each chunk of
batch indices yields the pair (X[batch_indices], y[batch_indices]). -/
def get_dataloader (d : SyntheticRegressionData)
    (shuffle : List Nat → List Nat) (train : Bool) :
    List (List (List ℚ) × List ℚ) :=
  (dataloader_indices d shuffle train).map
    (fun batch =>
      (batch.map (fun i => d.X.getD i []), batch.map (fun i => d.y.getD i 0)))

/-- The manual loader as the spec words it: in training mode the permuted
index list perm is sliced into contiguous chunks of batch_size (last chunk
may be short); in validation mode the indices of [num_train,
num_train+num_val) are enumerated in natural ascending order, unpermuted;
each chunk yields the feature rows and label rows at those indices. -/
def manualLoaderSpec (d : SyntheticRegressionData) (perm : List Nat)
    (train : Bool) : List (List (List ℚ) × List ℚ) :=
  let indices := if train then perm
    else (List.range (d.num_train + d.num_val)).filter
      (fun i => decide (d.num_train ≤ i))
  (chunkEvery d.batch_size indices).map
    (fun batch =>
      (batch.map (fun i => d.X.getD i []), batch.map (fun i => d.y.getD i 0)))

theorem range'_eq_filter_range (s n : Nat) :
    List.range' s n =
      (List.range (s + n)).filter (fun i => decide (s ≤ i)) := by
  induction n with
  | zero =>
    simp only [List.range'_zero, Nat.add_zero]
    symm
    rw [List.filter_eq_nil_iff]
    intro a ha
    simp only [List.mem_range] at ha
    simp
    omega
  | succ n ih =>
    rw [show s + (n + 1) = (s + n) + 1 by omega, List.range_succ,
      List.filter_append, ← ih, List.range'_concat]
    congr 1
    simp

/-- Python slicing a[lo:hi] on non-negative bounds; hi = none is an open
upper end, as in slice(num_train, None). -/
def pySlice (lo : Nat) (hi : Option Nat) (l : List α) : List α :=
  match hi with
  | some h => (l.take h).drop lo
  | none => l.drop lo

/-- Size of the tf.data shuffle buffer chosen by get_tensorloader: the full
slice length when train, else 1. -/
def shuffle_buffer (train : Bool) (sliceLen : Nat) : Nat :=
  if train then sliceLen else 1

/-- Model of Dataset.shuffle(buffer_size) at the two buffer sizes the code
uses: a buffer of size ≤ 1 reproduces the input order unchanged, and a
buffer spanning the whole list draws an arbitrary permutation, modelled by
the explicit function shuffle. -/
def bufferShuffle (bufferSize : Nat) (shuffle : List α → List α)
    (l : List α) : List α :=
  if bufferSize ≤ 1 then l else shuffle l

/-- Shallow embedding of get_tensorloader: both tensors are sliced by the
same indices, zipped into per-example (feature row, label) pairs as
from_tensor_slices does, shuffled with buffer size (slice length if train
else 1), and batched into chunks of batch_size. -/
def get_tensorloader (batch_size : Nat)
    (shuffle : List (List ℚ × ℚ) → List (List ℚ × ℚ))
    (tensorsX : List (List ℚ)) (tensorsY : List ℚ) (train : Bool)
    (lo : Nat) (hi : Option Nat) : List (List (List ℚ × ℚ)) :=
  let Xs := pySlice lo hi tensorsX
  let ys := pySlice lo hi tensorsY
  let pairs := List.zip Xs ys
  sliceChunks batch_size
    (bufferShuffle (shuffle_buffer train Xs.length) shuffle pairs)

/-- Shallow embedding of the concise get_dataloader: the slice is
slice(0, num_train) in training mode and slice(num_train, None) otherwise,
passed to get_tensorloader together with the train flag. -/
def get_dataloader_concise (d : SyntheticRegressionData)
    (shuffle : List (List ℚ × ℚ) → List (List ℚ × ℚ)) (train : Bool) :
    List (List (List ℚ × ℚ)) :=
  if train then
    get_tensorloader d.batch_size shuffle d.X d.y true 0 (some d.num_train)
  else
    get_tensorloader d.batch_size shuffle d.X d.y false d.num_train none

/-- A concrete PRNG model used for closed evaluations: split derives two
distinct keys and normal returns a value determined by (key, row, column),
chosen so that distinct rows get distinct values. -/
def gEx : PRNG :=
  { split := fun k => (2 * k + 1, 2 * k + 2),
    normal := fun key i j => (key : ℚ) + 31 * i + 7 * j }

/-- A small concrete dataset built by the constructor under gEx, with
num_train = 3, num_val = 2, batch_size = 2. -/
def dEx : SyntheticRegressionData :=
  SyntheticRegressionData.init gEx [2, -17/5] (21/5) (1/100) 3 2 2

/-- C1: for every dataset and batch_size ≥ 1, the manual loader in training
mode slices the drawn permutation of the materialized range [0, num_train)
into contiguous chunks of batch_size (last chunk may be short) and yields
the feature rows and label rows at those indices per chunk; in validation
mode it uses the indices of [num_train, num_train+num_val) in natural
ascending order, unpermuted.  Stated as: the code loader coincides with the
loader written from the spec's words, for either mode and any drawn
shuffle outcome. -/
theorem claim_c1_manual_loader_matches_spec (d : SyntheticRegressionData)
    (shuffle : List Nat → List Nat) (hbs : 1 ≤ d.batch_size) (train : Bool) :
    get_dataloader d shuffle train =
      manualLoaderSpec d (shuffle (List.range d.num_train)) train := by
  unfold get_dataloader dataloader_indices manualLoaderSpec
  cases train with
  | false =>
    simp only [Bool.false_eq_true, if_false]
    rw [range'_eq_filter_range, sliceChunks_eq_chunkEvery _ hbs]
  | true =>
    simp only [if_true]
    rw [sliceChunks_eq_chunkEvery _ hbs]

theorem claim_c1_manual_loader_matches_spec_witness :
    1 ≤ dEx.batch_size ∧
      get_dataloader dEx id true =
        manualLoaderSpec dEx (List.range dEx.num_train) true :=
  ⟨by decide, claim_c1_manual_loader_matches_spec dEx id (by decide) true⟩

/-- C2 (amended): the constructor accepts no seed argument; it hard-codes
PRNG key 0, so construction coincides with the seed-parameterized
construction at seed 0 and every two constructions with identical
arguments (under the same PRNG collaborator) produce identical X and y. -/
theorem claim_c2_fixed_seed_deterministic (g : PRNG) (w : List ℚ)
    (b noise : ℚ) (num_train num_val batch_size : Nat) :
    SyntheticRegressionData.init g w b noise num_train num_val batch_size =
      SyntheticRegressionData.initWithSeed g 0 w b noise num_train num_val
        batch_size :=
  rfl

/-- C2 (counterexample): the claim asserts some pair of unseeded
constructions with identical arguments yields differing X and y; but the
constructor reads no fresh entropy — its PRNG key is the hard-coded
PRNGKey 0 — so two constructions with identical concrete arguments yield
equal X and equal y. -/
theorem claim_c2_counterexample :
    ¬ ((SyntheticRegressionData.init gEx [2, -17/5] (21/5) (1/100) 4 4 8).X ≠
        (SyntheticRegressionData.init gEx [2, -17/5] (21/5) (1/100) 4 4 8).X ∨
       (SyntheticRegressionData.init gEx [2, -17/5] (21/5) (1/100) 4 4 8).y ≠
        (SyntheticRegressionData.init gEx [2, -17/5] (21/5) (1/100) 4 4 8).y) := by
  intro h
  rcases h with h | h <;> exact h rfl

theorem zipWith_noise_zero (w : List ℚ) (b : ℚ) :
    ∀ (l : List (List ℚ)) (n : Nat), l.length = n →
      List.zipWith (fun row e => dot row w + b + e) l (List.replicate n 0) =
        l.map (fun row => dot row w + b) := by
  intro l
  induction l with
  | nil => intro n h; simp
  | cons a t ih =>
    intro n h
    cases n with
    | zero => simp at h
    | succ m =>
      simp only [List.replicate_succ, List.zipWith_cons_cons, List.map_cons,
        add_zero]
      rw [ih m (by simpa using h)]

/-- C7: with noise standard deviation 0, every generated label equals the
dot product of its feature row with w plus b exactly: the additive noise
term contributes nothing. -/
theorem claim_c7_zero_noise (g : PRNG) (w : List ℚ) (b : ℚ)
    (num_train num_val batch_size : Nat) :
    (SyntheticRegressionData.init g w b 0 num_train num_val batch_size).y =
      (SyntheticRegressionData.init g w b 0 num_train num_val
        batch_size).X.map (fun row => dot row w + b) := by
  unfold SyntheticRegressionData.init
  simp [List.zipWith_map, List.zipWith_same, List.map_map, Function.comp]
  rw [zipWith_noise_zero w b _ (num_train + num_val) (by simp)]
  simp [List.map_map, Function.comp]

/-- C8: for every valid input, the generated dataset satisfies
len X = len y = num_train + num_val and every row of X has exactly len w
entries. -/
theorem claim_c8_shapes (g : PRNG) (w : List ℚ) (b noise : ℚ)
    (num_train num_val batch_size : Nat) :
    (SyntheticRegressionData.init g w b noise num_train num_val
        batch_size).X.length = num_train + num_val ∧
    (SyntheticRegressionData.init g w b noise num_train num_val
        batch_size).y.length = num_train + num_val ∧
    (SyntheticRegressionData.init g w b noise num_train num_val
        batch_size).X.all (fun row => row.length == w.length) = true := by
  unfold SyntheticRegressionData.init
  refine ⟨by simp, by simp, ?_⟩
  simp [List.all_eq_true]

/-- C6: the only fallible step of the constructor is the jnp.matmul of X
with w, which fails precisely when some row of X has a width other than
len w, and it runs at construction time; since the constructor draws X
with exactly len w columns, the checked construction always succeeds and
agrees with the unchecked one — the dimension mismatch is the sole error
condition and is checked (vacuously, as it cannot arise) at construction. -/
theorem claim_c6_error_condition (g : PRNG) (w : List ℚ) (b noise : ℚ)
    (num_train num_val batch_size : Nat) :
    SyntheticRegressionData.initChecked g w b noise num_train num_val
        batch_size =
      some (SyntheticRegressionData.init g w b noise num_train num_val
        batch_size) ∧
    ∀ X : List (List ℚ),
      matmul X w = none ↔ ∃ row ∈ X, row.length ≠ w.length := by
  constructor
  · simp only [SyntheticRegressionData.initChecked,
      SyntheticRegressionData.init, matmul]
    rw [if_pos (by simp [List.all_eq_true])]
    simp only [Option.map_some']
    congr 1
    rw [List.zipWith_map_left]
  · intro X
    cases h : X.all (fun row => row.length == w.length) with
    | false =>
      simp only [matmul, h, Bool.false_eq_true, if_false, true_iff]
      rw [List.all_eq_false] at h
      rcases h with ⟨row, hrow, hne⟩
      exact ⟨row, hrow, by simpa using hne⟩
    | true =>
      simp only [matmul, h, if_true]
      rw [List.all_eq_true] at h
      constructor
      · intro hcon
        exact Option.noConfusion hcon
      · rintro ⟨row, hrow, hne⟩
        exact absurd (by simpa using h row hrow) hne

theorem sum_batch_sizes (d : SyntheticRegressionData) (idx : List Nat)
    (hbs : 1 ≤ d.batch_size) :
    (((sliceChunks d.batch_size idx).map (fun batch =>
        (batch.map (fun i => d.X.getD i []),
         batch.map (fun i => d.y.getD i 0)))).map
      (fun batch => batch.1.length)).sum = idx.length := by
  rw [List.map_map]
  have h1 : ((fun batch : List (List ℚ) × List ℚ => batch.1.length) ∘
      fun batch : List Nat =>
        (batch.map (fun i => d.X.getD i []),
         batch.map (fun i => d.y.getD i 0))) = List.length := by
    funext batch
    simp
  rw [h1, sum_length_sliceChunks _ hbs]

/-- C3: for every batch_size ≥ 1 and every drawn shuffle permutation,
summing the sizes of the batches of one full training pass of the manual
loader gives num_train, and summing those of one full validation pass
gives num_val. -/
theorem claim_c3_pass_example_totals (d : SyntheticRegressionData)
    (shuffle : List Nat → List Nat) (hbs : 1 ≤ d.batch_size)
    (hsh : (shuffle (List.range d.num_train)).Perm
      (List.range d.num_train)) :
    ((get_dataloader d shuffle true).map (fun batch => batch.1.length)).sum
        = d.num_train ∧
    ((get_dataloader d shuffle false).map (fun batch => batch.1.length)).sum
        = d.num_val := by
  constructor
  · unfold get_dataloader dataloader_indices
    simp only [if_true]
    rw [sum_batch_sizes d _ hbs, hsh.length_eq, List.length_range]
  · unfold get_dataloader dataloader_indices
    simp only [Bool.false_eq_true, if_false]
    rw [sum_batch_sizes d _ hbs, List.length_range']

theorem claim_c3_pass_example_totals_witness :
    (1 ≤ dEx.batch_size ∧
      ((List.range dEx.num_train).reverse).Perm (List.range dEx.num_train)) ∧
    ((get_dataloader dEx (fun l => l.reverse) true).map
        (fun batch => batch.1.length)).sum = dEx.num_train ∧
    ((get_dataloader dEx (fun l => l.reverse) false).map
        (fun batch => batch.1.length)).sum = dEx.num_val :=
  ⟨⟨by decide, List.reverse_perm _⟩,
    claim_c3_pass_example_totals dEx (fun l => l.reverse) (by decide)
      (List.reverse_perm _)⟩

theorem length_bufferShuffle (n : Nat) (shuffle : List α → List α)
    (hsh : ∀ l : List α, (shuffle l).Perm l) (l : List α) :
    (bufferShuffle n shuffle l).length = l.length := by
  unfold bufferShuffle
  split
  · rfl
  · exact (hsh l).length_eq

theorem get_tensorloader_counts (bs : Nat)
    (shuffle : List (List ℚ × ℚ) → List (List ℚ × ℚ))
    (hsh : ∀ ps, (shuffle ps).Perm ps) (X : List (List ℚ)) (y : List ℚ)
    (train : Bool) (lo : Nat) (hi : Option Nat) :
    (get_tensorloader bs shuffle X y train lo hi).length =
      ((List.zip (pySlice lo hi X) (pySlice lo hi y)).length + bs - 1) / bs ∧
    ∀ (k : Nat) (hk : k < (get_tensorloader bs shuffle X y train lo hi).length),
      ((get_tensorloader bs shuffle X y train lo hi)[k]).length =
        min bs ((List.zip (pySlice lo hi X) (pySlice lo hi y)).length - k * bs) := by
  simp only [get_tensorloader]
  constructor
  · rw [length_sliceChunks, length_bufferShuffle _ _ hsh]
  · intro k hk
    rw [length_getElem_sliceChunks _ _ _ hk, length_bufferShuffle _ _ hsh]

/-- C4: the number of batches over a slice of length L with batch size b is
the ceiling (L + b - 1) / b of L / b, and the length of the library-backed
loader returns this count; with num_train = 1000 and batch_size = 32 one
training pass of the concise loader yields 32 batches whose last batch
(index 31) has size 8, and with num_train = 10 and batch_size = 4 a
training pass yields batches of sizes 4, 4, 2. -/
theorem claim_c4_batch_counts :
    (∀ (bs : Nat) (shuffle : List (List ℚ × ℚ) → List (List ℚ × ℚ)),
      (∀ ps, (shuffle ps).Perm ps) →
      ∀ (X : List (List ℚ)) (y : List ℚ) (train : Bool) (lo : Nat)
        (hi : Option Nat),
      (get_tensorloader bs shuffle X y train lo hi).length =
        ((List.zip (pySlice lo hi X) (pySlice lo hi y)).length + bs - 1) / bs) ∧
    (∀ (d : SyntheticRegressionData)
      (shuffle : List (List ℚ × ℚ) → List (List ℚ × ℚ)),
      (∀ ps, (shuffle ps).Perm ps) →
      d.num_train = 1000 → d.batch_size = 32 → d.X.length = 2000 →
      d.y.length = 2000 →
      (get_dataloader_concise d shuffle true).length = 32 ∧
      ((get_dataloader_concise d shuffle true).getD 31 []).length = 8) ∧
    (∀ (d : SyntheticRegressionData)
      (shuffle : List (List ℚ × ℚ) → List (List ℚ × ℚ)),
      (∀ ps, (shuffle ps).Perm ps) →
      d.num_train = 10 → d.batch_size = 4 → 10 ≤ d.X.length →
      10 ≤ d.y.length →
      (get_dataloader_concise d shuffle true).map List.length = [4, 4, 2]) := by
  refine ⟨?_, ?_, ?_⟩
  · intro bs shuffle hsh X y train lo hi
    exact (get_tensorloader_counts bs shuffle hsh X y train lo hi).1
  · intro d shuffle hsh hnt hbs hX hy
    simp only [get_dataloader_concise, if_true]
    rw [hbs, hnt]
    have hz : (List.zip (pySlice 0 (some 1000) d.X)
        (pySlice 0 (some 1000) d.y)).length = 1000 := by
      simp [pySlice, hX, hy]
    have hlen := (get_tensorloader_counts 32 shuffle hsh d.X d.y true 0
      (some 1000)).1
    rw [hz] at hlen
    have hlen32 : (get_tensorloader 32 shuffle d.X d.y true 0
        (some 1000)).length = 32 := by
      rw [hlen]
    refine ⟨hlen32, ?_⟩
    have h31 : 31 < (get_tensorloader 32 shuffle d.X d.y true 0
        (some 1000)).length := by
      rw [hlen32]
      omega
    rw [List.getD_eq_getElem _ _ h31]
    have hsz := (get_tensorloader_counts 32 shuffle hsh d.X d.y true 0
      (some 1000)).2 31 h31
    rw [hz] at hsz
    rw [hsz]
    omega
  · intro d shuffle hsh hnt hbs hX hy
    simp only [get_dataloader_concise, if_true]
    rw [hbs, hnt]
    have hz : (List.zip (pySlice 0 (some 10) d.X)
        (pySlice 0 (some 10) d.y)).length = 10 := by
      simp [pySlice]
      omega
    have hlen := (get_tensorloader_counts 4 shuffle hsh d.X d.y true 0
      (some 10)).1
    rw [hz] at hlen
    have hlen3 : (get_tensorloader 4 shuffle d.X d.y true 0
        (some 10)).length = 3 := by
      rw [hlen]
    apply List.ext_getElem
    · rw [List.length_map, hlen3]
      rfl
    · intro i h1 h2
      rw [List.length_map, hlen3] at h1
      have hi3 : i < (get_tensorloader 4 shuffle d.X d.y true 0
          (some 10)).length := by
        rw [hlen3]
        exact h1
      rw [List.getElem_map]
      have hsz := (get_tensorloader_counts 4 shuffle hsh d.X d.y true 0
        (some 10)).2 i hi3
      rw [hz] at hsz
      rw [hsz]
      interval_cases i <;>
        (simp only [List.getElem_cons_zero, List.getElem_cons_succ]; omega)

/-- A larger concrete dataset matching the first C4 scenario:
num_train = num_val = 1000, batch_size = 32. -/
def dBig : SyntheticRegressionData :=
  SyntheticRegressionData.init gEx [2, -17/5] (21/5) (1/100) 1000 1000 32

/-- A concrete dataset matching the second C4 scenario: num_train = 10,
batch_size = 4. -/
def dSmall : SyntheticRegressionData :=
  SyntheticRegressionData.init gEx [2, -17/5] (21/5) (1/100) 10 5 4

theorem claim_c4_batch_counts_witness :
    (get_tensorloader 2 id dEx.X dEx.y true 0 (some 3)).length =
      ((List.zip (pySlice 0 (some 3) dEx.X)
        (pySlice 0 (some 3) dEx.y)).length + 2 - 1) / 2 ∧
    ((get_dataloader_concise dBig id true).length = 32 ∧
      ((get_dataloader_concise dBig id true).getD 31 []).length = 8) ∧
    (get_dataloader_concise dSmall id true).map List.length = [4, 4, 2] :=
  ⟨claim_c4_batch_counts.1 2 id (fun ps => List.Perm.refl ps) dEx.X dEx.y
      true 0 (some 3),
   claim_c4_batch_counts.2.1 dBig id (fun ps => List.Perm.refl ps) rfl rfl
      (by simp [dBig, SyntheticRegressionData.init])
      (by simp [dBig, SyntheticRegressionData.init]),
   claim_c4_batch_counts.2.2 dSmall id (fun ps => List.Perm.refl ps) rfl rfl
      (by simp [dSmall, SyntheticRegressionData.init])
      (by simp [dSmall, SyntheticRegressionData.init])⟩

/-- Exchanges the first two elements of a list; one concrete permutation a
shuffle with a different seed can draw. -/
def swapTwo (l : List α) : List α :=
  match l with
  | a :: c :: t => c :: a :: t
  | x => x

theorem swapTwo_perm (l : List α) : (swapTwo l).Perm l := by
  match l with
  | [] => exact List.Perm.refl _
  | [a] => exact List.Perm.refl _
  | a :: c :: t => exact List.Perm.swap a c t

theorem range_two_cons (n : Nat) (hn : 2 ≤ n) :
    List.range n = 0 :: 1 :: List.range' 2 (n - 2) := by
  rw [List.range_eq_range', show n = (n - 2) + 1 + 1 by omega,
    List.range'_succ, List.range'_succ]
  rfl

/-- C5: training-mode iteration order varies across shuffle draws — there
are two drawn permutations under which the manual loader's batch index
sequences differ — while validation-mode output is identical for all
draws; in the library-backed variant the asymmetry comes from the shuffle
buffer: with train = false the buffer is 1 and the loader batches the
slice in its given order ignoring the drawn shuffle, and with train = true
the buffer is the full slice length and the drawn shuffle is applied to
the whole slice. -/
theorem claim_c5_shuffle_asymmetry (d : SyntheticRegressionData)
    (hbs : 1 ≤ d.batch_size) (hnt : 2 ≤ d.num_train) :
    (∃ s₁ s₂ : List Nat → List Nat,
      (s₁ (List.range d.num_train)).Perm (List.range d.num_train) ∧
      (s₂ (List.range d.num_train)).Perm (List.range d.num_train) ∧
      dataloader_indices d s₁ true ≠ dataloader_indices d s₂ true) ∧
    (∀ s₁ s₂ : List Nat → List Nat,
      get_dataloader d s₁ false = get_dataloader d s₂ false) ∧
    (∀ (bs : Nat) (shuffle : List (List ℚ × ℚ) → List (List ℚ × ℚ))
      (X : List (List ℚ)) (y : List ℚ) (lo : Nat) (hi : Option Nat),
      get_tensorloader bs shuffle X y false lo hi =
        sliceChunks bs (List.zip (pySlice lo hi X) (pySlice lo hi y)) ∧
      (2 ≤ (pySlice lo hi X).length →
        get_tensorloader bs shuffle X y true lo hi =
          sliceChunks bs
            (shuffle (List.zip (pySlice lo hi X) (pySlice lo hi y))))) := by
  refine ⟨⟨fun l => l, swapTwo, List.Perm.refl _, swapTwo_perm _, ?_⟩, ?_, ?_⟩
  · intro h
    unfold dataloader_indices at h
    simp only [if_true] at h
    rw [range_two_cons d.num_train hnt] at h
    rw [show swapTwo (0 :: 1 :: List.range' 2 (d.num_train - 2)) =
        1 :: 0 :: List.range' 2 (d.num_train - 2) from rfl] at h
    rw [sliceChunks_cons _ hbs, sliceChunks_cons _ hbs] at h
    obtain ⟨m, hm⟩ : ∃ m, d.batch_size = m + 1 :=
      ⟨d.batch_size - 1, by omega⟩
    rw [hm] at h
    simp [List.take_succ_cons] at h
  · intro s₁ s₂
    rfl
  · intro bs shuffle X y lo hi
    constructor
    · simp only [get_tensorloader, shuffle_buffer, bufferShuffle,
        Bool.false_eq_true, if_false, le_refl, if_true]
    · intro h2
      simp only [get_tensorloader, shuffle_buffer, bufferShuffle, if_true]
      rw [if_neg (by omega)]

theorem claim_c5_shuffle_asymmetry_witness :
    (1 ≤ dEx.batch_size ∧ 2 ≤ dEx.num_train) ∧
    ((∃ s₁ s₂ : List Nat → List Nat,
      (s₁ (List.range dEx.num_train)).Perm (List.range dEx.num_train) ∧
      (s₂ (List.range dEx.num_train)).Perm (List.range dEx.num_train) ∧
      dataloader_indices dEx s₁ true ≠ dataloader_indices dEx s₂ true) ∧
    (∀ s₁ s₂ : List Nat → List Nat,
      get_dataloader dEx s₁ false = get_dataloader dEx s₂ false) ∧
    (∀ (bs : Nat) (shuffle : List (List ℚ × ℚ) → List (List ℚ × ℚ))
      (X : List (List ℚ)) (y : List ℚ) (lo : Nat) (hi : Option Nat),
      get_tensorloader bs shuffle X y false lo hi =
        sliceChunks bs (List.zip (pySlice lo hi X) (pySlice lo hi y)) ∧
      (2 ≤ (pySlice lo hi X).length →
        get_tensorloader bs shuffle X y true lo hi =
          sliceChunks bs
            (shuffle (List.zip (pySlice lo hi X) (pySlice lo hi y)))))) :=
  ⟨⟨by decide, by decide⟩,
    claim_c5_shuffle_asymmetry dEx (by decide) (by decide)⟩

theorem mem_bufferShuffle (n : Nat) (shuffle : List α → List α)
    (hsh : ∀ l : List α, (shuffle l).Perm l) (l : List α) (x : α)
    (hx : x ∈ bufferShuffle n shuffle l) : x ∈ l := by
  unfold bufferShuffle at hx
  split at hx
  · exact hx
  · exact (hsh l).mem_iff.mp hx

/-- C10: in every batch of either loader variant the feature rows and the
labels are selected by the same index sequence.  Manual variant: every
yielded batch is the image of a single index list, its features gathered
from X and its labels from y at the very same indices.  Library-backed
variant: every element of every batch is a (feature row, label) pair taken
from one common position i of the sliced tensors, so the k-th feature row
and the k-th label of a batch come from the same original dataset index. -/
theorem claim_c10_pairing (d : SyntheticRegressionData)
    (shuffle_m : List Nat → List Nat) (train : Bool) :
    (∀ batch ∈ get_dataloader d shuffle_m train, ∃ idxs : List Nat,
      batch.1 = idxs.map (fun i => d.X.getD i []) ∧
      batch.2 = idxs.map (fun i => d.y.getD i 0)) ∧
    (∀ (bs : Nat) (shuffle_t : List (List ℚ × ℚ) → List (List ℚ × ℚ)),
      (∀ ps, (shuffle_t ps).Perm ps) →
      ∀ (lo : Nat) (hi : Option Nat),
      ∀ batch ∈ get_tensorloader bs shuffle_t d.X d.y train lo hi,
      ∀ p ∈ batch, ∃ i,
        i < (pySlice lo hi d.X).length ∧ i < (pySlice lo hi d.y).length ∧
        p.1 = (pySlice lo hi d.X).getD i [] ∧
        p.2 = (pySlice lo hi d.y).getD i 0) := by
  constructor
  · intro batch hb
    unfold get_dataloader at hb
    rcases List.mem_map.mp hb with ⟨idxs, _, hback⟩
    exact ⟨idxs, by rw [← hback], by rw [← hback]⟩
  · intro bs shuffle_t hsh lo hi batch hb p hp
    simp only [get_tensorloader] at hb
    have hp2 : p ∈ bufferShuffle
        (shuffle_buffer train (pySlice lo hi d.X).length) shuffle_t
        (List.zip (pySlice lo hi d.X) (pySlice lo hi d.y)) :=
      mem_of_mem_sliceChunks _ _ batch hb p hp
    have hp3 : p ∈ List.zip (pySlice lo hi d.X) (pySlice lo hi d.y) :=
      mem_bufferShuffle _ _ hsh _ p hp2
    rcases List.mem_iff_getElem.mp hp3 with ⟨i, hilt, hip⟩
    have hiX : i < (pySlice lo hi d.X).length := by
      rw [List.length_zip] at hilt
      omega
    have hiy : i < (pySlice lo hi d.y).length := by
      rw [List.length_zip] at hilt
      omega
    refine ⟨i, hiX, hiy, ?_, ?_⟩
    · rw [List.getD_eq_getElem _ _ hiX, ← hip]
      simp [List.getElem_zip]
    · rw [List.getD_eq_getElem _ _ hiy, ← hip]
      simp [List.getElem_zip]

/-- A directly specified tiny dataset with integer-valued rational entries,
used for closed-form evaluations of the loaders (the constructor's PRNG
arithmetic is irrelevant to the loaders, which only gather rows). -/
def dFlat : SyntheticRegressionData :=
  { num_train := 2, num_val := 2, batch_size := 2,
    X := [[1, 0], [2, 1], [3, 2], [4, 3]], y := [5, 6, 7, 8] }

theorem claim_c10_pairing_witness :
    ((get_dataloader dFlat id true).getD 0 ([], []) ∈
      get_dataloader dFlat id true) ∧
    (((get_tensorloader 2 id dFlat.X dFlat.y true 0 (some 2)).getD 0 []).getD
        0 ([], 0) ∈
      (get_tensorloader 2 id dFlat.X dFlat.y true 0 (some 2)).getD 0 []) ∧
    (∃ idxs : List Nat,
      ((get_dataloader dFlat id true).getD 0 ([], [])).1 =
        idxs.map (fun i => dFlat.X.getD i []) ∧
      ((get_dataloader dFlat id true).getD 0 ([], [])).2 =
        idxs.map (fun i => dFlat.y.getD i 0)) ∧
    (∃ i, i < (pySlice 0 (some 2) dFlat.X).length ∧
      i < (pySlice 0 (some 2) dFlat.y).length ∧
      (((get_tensorloader 2 id dFlat.X dFlat.y true 0 (some 2)).getD 0
        []).getD 0 ([], 0)).1 = (pySlice 0 (some 2) dFlat.X).getD i [] ∧
      (((get_tensorloader 2 id dFlat.X dFlat.y true 0 (some 2)).getD 0
        []).getD 0 ([], 0)).2 = (pySlice 0 (some 2) dFlat.y).getD i 0) :=
  ⟨by decide, by decide,
   (claim_c10_pairing dFlat id true).1 _ (by decide),
   (claim_c10_pairing dFlat id true).2 2 id (fun ps => List.Perm.refl ps) 0
      (some 2) ((get_tensorloader 2 id dFlat.X dFlat.y true 0
        (some 2)).getD 0 []) (by decide)
      (((get_tensorloader 2 id dFlat.X dFlat.y true 0 (some 2)).getD 0
        []).getD 0 ([], 0)) (by decide)⟩

/-- Modelled from the spec: a checkpoint tensor as persisted by the
framework — array values together with their shape.  The jnp.save / .npy
machinery is framework code absent from this repository; the spec treats
persistence as opaque save/load of a key → array mapping, so the persisted
form is modelled as an explicit token stream below. -/
structure Tensor where
  shape : List Nat
  data : List ℚ

/-- Modelled from the spec: one token of the persisted stream. -/
inductive Tok where
  | str : String → Tok
  | nat : Nat → Tok
  | rat : ℚ → Tok

/-- Modelled from the spec: serialized form of one tensor — its shape with
a length prefix, then its data with a length prefix. -/
def encodeTensor (t : Tensor) : List Tok :=
  Tok.nat t.shape.length :: t.shape.map Tok.nat ++
    Tok.nat t.data.length :: t.data.map Tok.rat

/-- Modelled from the spec: serialized form of one name → tensor entry. -/
def encodeEntry (e : String × Tensor) : List Tok :=
  Tok.str e.1 :: encodeTensor e.2

/-- Modelled from the spec: jnp.save of a mapping from string keys to
tensors — an entry-count prefix followed by the serialized entries. -/
def save (m : List (String × Tensor)) : List Tok :=
  Tok.nat m.length :: (m.map encodeEntry).flatten

def readNat : List Tok → Option (Nat × List Tok)
  | Tok.nat n :: rest => some (n, rest)
  | _ => none

def readStr : List Tok → Option (String × List Tok)
  | Tok.str s :: rest => some (s, rest)
  | _ => none

def readNats : Nat → List Tok → Option (List Nat × List Tok)
  | 0, ts => some ([], ts)
  | k + 1, ts =>
    match readNat ts with
    | some (n, ts1) =>
      match readNats k ts1 with
      | some (ns, ts2) => some (n :: ns, ts2)
      | none => none
    | none => none

def readRats : Nat → List Tok → Option (List ℚ × List Tok)
  | 0, ts => some ([], ts)
  | k + 1, ts =>
    match ts with
    | Tok.rat q :: ts1 =>
      match readRats k ts1 with
      | some (qs, ts2) => some (q :: qs, ts2)
      | none => none
    | _ => none

def readTensor (ts : List Tok) : Option (Tensor × List Tok) :=
  match readNat ts with
  | some (k, ts1) =>
    match readNats k ts1 with
    | some (shape, ts2) =>
      match readNat ts2 with
      | some (m, ts3) =>
        match readRats m ts3 with
        | some (data, ts4) => some ({ shape := shape, data := data }, ts4)
        | none => none
      | none => none
    | none => none
  | none => none

def readEntries : Nat → List Tok → Option (List (String × Tensor) × List Tok)
  | 0, ts => some ([], ts)
  | k + 1, ts =>
    match readStr ts with
    | some (s, ts1) =>
      match readTensor ts1 with
      | some (t, ts2) =>
        match readEntries k ts2 with
        | some (es, ts3) => some ((s, t) :: es, ts3)
        | none => none
      | none => none
    | none => none

/-- Modelled from the spec: jnp.load of a persisted mapping; none on a
malformed stream; the whole stream must be consumed. -/
def load (ts : List Tok) : Option (List (String × Tensor)) :=
  match readNat ts with
  | some (c, ts1) =>
    match readEntries c ts1 with
    | some (es, []) => some es
    | _ => none
  | none => none

theorem readNats_append (ns : List Nat) (rest : List Tok) :
    readNats ns.length (ns.map Tok.nat ++ rest) = some (ns, rest) := by
  induction ns with
  | nil => simp [readNats]
  | cons a t ih => simp [readNats, readNat, ih]

theorem readRats_append (qs : List ℚ) (rest : List Tok) :
    readRats qs.length (qs.map Tok.rat ++ rest) = some (qs, rest) := by
  induction qs with
  | nil => simp [readRats]
  | cons a t ih => simp [readRats, ih]

theorem readTensor_append (t : Tensor) (rest : List Tok) :
    readTensor (encodeTensor t ++ rest) = some (t, rest) := by
  unfold readTensor encodeTensor
  simp [readNat, List.append_assoc, readNats_append, readRats_append]

theorem readEntries_append (m : List (String × Tensor)) (rest : List Tok) :
    readEntries m.length ((m.map encodeEntry).flatten ++ rest) =
      some (m, rest) := by
  induction m with
  | nil => simp [readEntries]
  | cons e t ih =>
    simp only [List.length_cons, List.map_cons, List.flatten_cons,
      List.append_assoc, readEntries, encodeEntry, List.cons_append,
      readStr]
    simp [readTensor_append, ih]

theorem load_save (m : List (String × Tensor)) : load (save m) = some m := by
  unfold load save
  simp only [readNat]
  have h := readEntries_append m []
  rw [List.append_nil] at h
  rw [h]

/-- C9: saving the mapping from the key x to a tensor t and loading it back
returns a mapping element-wise equal to the original, for every tensor t;
an instance of the general save/load round-trip law proved for arbitrary
name → tensor mappings. -/
theorem claim_c9_save_load_roundtrip (t : Tensor) :
    load (save [("x", t)]) = some [("x", t)] :=
  load_save [("x", t)]

end D2L
